/-
Verification of the symptom-risk-visualization inference core.

This file shallowly embeds the Python inference pipeline of the repository
(src/backend/model/model.py, src/backend/model/encoding.py,
src/backend/model/predict.py) into Lean 4 and proves properties of the
embedding.

Modelling conventions:
* Python strings are modelled as `List Char` (`Str`); `str.strip`,
  `str.lower` and `str.replace` are modelled character-exactly for the
  ASCII fragment the data uses (Python's `.lower()` and `.strip()` agree
  with these definitions on ASCII input).
* Python floats are modelled as exact rationals `ℚ`; `round(x, n)` is
  modelled as decimal rounding half-to-even, which is Python's rounding
  rule for `round` on exact values.
* Python dicts are modelled as association lists built with
  overwrite-on-duplicate insertion (`dictInsert`), which preserves
  first-insertion key order and keeps the last written value, exactly as
  CPython dicts do.  A dict comprehension `{name: i for i, name in
  enumerate(xs)}` therefore maps a name to the index of its *last*
  occurrence (`lastIdx`).
* Python operations that can raise (`dict[key]`, `list[idx]`) are
  modelled in the `Option` monad: `none` marks the raising execution.
* The classifier (an sklearn SVC) is opaque to the inference code; it is
  modelled as a record exposing `classes_` and `predict_proba`, exactly
  the two members `predict.py` reads.
-/
import Mathlib

namespace SymptomRisk

/-- Python strings, modelled as lists of characters. -/
abbrev Str := List Char

/-- The characters Python's `str.strip()` removes (ASCII whitespace:
space, tab, newline, carriage return, vertical tab, form feed). -/
def isPySpace (c : Char) : Bool :=
  decide (c.toNat = 32 ∨ c.toNat = 9 ∨ c.toNat = 10 ∨ c.toNat = 13 ∨
    c.toNat = 11 ∨ c.toNat = 12)

/-- Python's `str.strip()`: drop leading and trailing whitespace. -/
def strip (s : Str) : Str :=
  ((s.dropWhile isPySpace).reverse.dropWhile isPySpace).reverse

/-- One character of `str.lower()` (ASCII case mapping). -/
def lowerChar (c : Char) : Char :=
  if 65 ≤ c.toNat ∧ c.toNat ≤ 90 then Char.ofNat (c.toNat + 32) else c

/-- Python's `str.lower()` on the ASCII fragment. -/
def lowerStr (s : Str) : Str := s.map lowerChar

/-- Python's `str.replace(" ", "_")`: every space becomes an underscore. -/
def replaceSpace (s : Str) : Str :=
  s.map (fun c => if c = ' ' then '_' else c)

/-- Python's `str.replace("__", "_")`: one left-to-right pass replacing each
non-overlapping occurrence of two underscores by one. -/
def collapseUU : Str → Str
  | [] => []
  | [c] => [c]
  | c :: c' :: rest =>
    if c = '_' ∧ c' = '_' then '_' :: collapseUU rest
    else c :: collapseUU (c' :: rest)

/-- Whether the string contains two adjacent underscores. -/
def hasUU : Str → Bool
  | [] => false
  | [_] => false
  | c :: c' :: rest =>
    if c = '_' ∧ c' = '_' then true else hasUU (c' :: rest)

/-- A Python value that may or may not be a string, for the
`isinstance(symptom, str)` test in `normalize_symptom`. -/
inductive PyVal where
  | str (s : Str)
  | nonStr
deriving DecidableEq

/-- From `model.py`, `normalize_symptom`: non-strings map to `""`; strings are
stripped, lowercased, spaces become underscores, then one pass of
`"__" -> "_"`. -/
def normalize_symptom : PyVal → Str
  | .str s => collapseUU (replaceSpace (lowerStr (strip s)))
  | .nonStr => []

/-- From `encoding.py` line 50, the inline cleaning inside
`encode_user_symptoms`: `symptom.strip().lower().replace(" ", "_")`.
Note: unlike `normalize_symptom`, there is no `"__" -> "_"` pass. -/
def cleanSymptom (s : Str) : Str := replaceSpace (lowerStr (strip s))

/-- The index a Python dict comprehension
`{name: i for i, name in enumerate(cols)}` associates to `name`:
the index of the last occurrence of `name` in `cols` (later writes win),
`none` when absent (lookup would raise `KeyError`). -/
def lastIdx (name : Str) : List Str → Option Nat
  | [] => none
  | c :: cs =>
    match lastIdx name cs with
    | some j => some (j + 1)
    | none => if c = name then some 0 else none

/-- The parsed request body: `request_json.get("symptoms", [])`. -/
structure Request where
  symptoms : List Str
deriving DecidableEq

/-- One step of the loop in `encode_user_symptoms`: clean the symptom,
and when the cleaned name is a feature column, write the severity weight
(looked up by the original string, default 1) at its index. -/
def encodeStep (feature_columns : List Str) (severity_lookup : Str → Option Int)
    (vector : List Int) (symptom : Str) : List Int :=
  match lastIdx (cleanSymptom symptom) feature_columns with
  | some index => vector.set index ((severity_lookup symptom).getD 1)
  | none => vector

/-- From `encoding.py`, `encode_user_symptoms`: start from a zero vector of
length `len(feature_columns)` and run the loop over the request's
symptoms. -/
def encode_user_symptoms (request_json : Request) (feature_columns : List Str)
    (severity_lookup : Str → Option Int) : List Int :=
  request_json.symptoms.foldl (encodeStep feature_columns severity_lookup)
    (List.replicate feature_columns.length 0)

/-! ## The classifier and the top-K ranker (`predict.py`) -/

/-- The two members of the trained sklearn model that `predict.py` reads:
`model.classes_` and `model.predict_proba` (floats modelled as `ℚ`).
`predict_proba([v])[0]` is modelled as `predict_proba v`. -/
structure Model where
  classes : List Str
  predict_proba : List Int → List ℚ

/-- One `{"disease": ..., "probability": ...}` entry of the top-K list. -/
structure Prediction where
  disease : Str
  probability : ℚ
deriving DecidableEq

/-- Rounding half to even to an integer, Python's rounding rule. -/
def roundHalfEven (q : ℚ) : ℤ :=
  if q - ⌊q⌋ < 1 / 2 then ⌊q⌋
  else if 1 / 2 < q - ⌊q⌋ then ⌊q⌋ + 1
  else if ⌊q⌋ % 2 = 0 then ⌊q⌋ else ⌊q⌋ + 1

/-- Python's `round(q, digits)` on exact values: decimal rounding half to
even at `digits` fractional digits. -/
def pyRound (digits : Nat) (q : ℚ) : ℚ :=
  (roundHalfEven (q * (10 ^ digits : ℚ)) : ℚ) / (10 ^ digits : ℚ)

/-- Insert into a descending-sorted list, before the first element whose
probability is not larger: this is where a stable descending sort places
a new earliest element (ties keep original order). -/
def insertDesc (x : Str × ℚ) : List (Str × ℚ) → List (Str × ℚ)
  | [] => [x]
  | y :: ys => if y.2 ≤ x.2 then x :: y :: ys else y :: insertDesc x ys

/-- Python's `sorted(pairs, key=lambda x: x[1], reverse=True)`: the sort is
stable, and a stable sort is unique, so stable insertion sort is an exact
model. -/
def sortDesc : List (Str × ℚ) → List (Str × ℚ)
  | [] => []
  | x :: xs => insertDesc x (sortDesc xs)

/-- Python's `lst[:k]` for an `int` k: a nonnegative `k` keeps the first
`min(k, len)` elements; a negative `k` drops the last `|k|` elements. -/
def pyTake (k : Int) (l : List α) : List α :=
  if 0 ≤ k then l.take k.toNat else l.take (l.length - (-k).toNat)

/-- From `predict.py`, `predict_top_k_from_json`: encode the request, get the
probability row, pair it with the classes, sort descending by
probability (stable), slice to `k`, and format with the probability
rounded to 4 digits. -/
def predict_top_k_from_json (model : Model) (request_json : Request)
    (feature_columns : List Str) (severity_table : Str → Option Int)
    (k : Int) : List Prediction :=
  let vector := encode_user_symptoms request_json feature_columns severity_table
  let probabilities := model.predict_proba vector
  let disease_probs := sortDesc (model.classes.zip probabilities)
  (pyTake k disease_probs).map (fun p => ⟨p.1, pyRound 4 p.2⟩)

/-! ## The contribution analyzer (`predict.py`) -/

/-- One `{"raw": ..., "scaled": ...}` contribution entry. -/
structure ContributionEntry where
  raw : ℚ
  scaled : ℚ
deriving DecidableEq

/-- CPython dict assignment `d[k] = v` on an association list: overwrite
in place when the key exists (keeping first-insertion order), else append. -/
def dictInsert (k : Str) (v : α) : List (Str × α) → List (Str × α)
  | [] => [(k, v)]
  | (k', v') :: rest =>
    if k' = k then (k, v) :: rest else (k', v') :: dictInsert k v rest

/-- The inner loop of `calculate_symptom_contributions` for one disease:
for each selected symptom, skip it unless the *raw* string is a feature
column (the code assumes pre-cleaned input); otherwise mute its dimension,
re-predict, clamp the probability drop at 0, weight it by the severity of
the raw string (default 1), and store it keyed by the raw string.
`none` models the `IndexError` raised when the model's probability row is
shorter than `dIdx + 1`. -/
def symptomScores (model : Model) (baseline_vector : List Int)
    (baseline_prob : ℚ) (dIdx : Nat) (feature_columns : List Str)
    (severity_table : Str → Option Int) :
    List Str → List (Str × ℚ) → Option (List (Str × ℚ))
  | [], acc => some acc
  | symptom :: rest, acc =>
    match lastIdx symptom feature_columns with
    | none => symptomScores model baseline_vector baseline_prob dIdx
        feature_columns severity_table rest acc
    | some sIdx =>
      match (model.predict_proba (baseline_vector.set sIdx 0))[dIdx]? with
      | none => none
      | some new_prob =>
        let prob_drop := max 0 (baseline_prob - new_prob)
        let weight : ℚ := ((severity_table symptom).getD 1 : ℤ)
        symptomScores model baseline_vector baseline_prob dIdx
          feature_columns severity_table rest
          (dictInsert symptom (prob_drop * weight) acc)

/-- The outer loop of `calculate_symptom_contributions`: for each
prediction, look up the disease's class index (`none` models the
`KeyError` on an unknown disease), fetch its baseline probability
(`none` models the `IndexError`), and accumulate that disease's symptom
scores. -/
def rawImpact (model : Model) (baseline_vector : List Int)
    (baseline_probs : List ℚ) (selected_symptoms : List Str)
    (feature_columns : List Str) (severity_table : Str → Option Int) :
    List Prediction → List (Str × List (Str × ℚ)) →
    Option (List (Str × List (Str × ℚ)))
  | [], acc => some acc
  | pred :: rest, acc =>
    match lastIdx pred.disease model.classes with
    | none => none
    | some dIdx =>
      match baseline_probs[dIdx]? with
      | none => none
      | some baseline_prob =>
        match symptomScores model baseline_vector baseline_prob dIdx
            feature_columns severity_table selected_symptoms [] with
        | none => none
        | some disease_scores =>
          rawImpact model baseline_vector baseline_probs selected_symptoms
            feature_columns severity_table rest
            (dictInsert pred.disease disease_scores acc)

/-- Python's `max(all_scores) if all_scores else 1`. -/
def highestImpact : List ℚ → ℚ
  | [] => 1
  | x :: xs => xs.foldl max x

/-- The flattening `[score for d_scores in raw_impact_results.values()
for score in d_scores.values()]`. -/
def allScores (raw_impact_results : List (Str × List (Str × ℚ))) : List ℚ :=
  (raw_impact_results.map (fun p => p.2.map (·.2))).flatten

/-- The scaling pass of `calculate_symptom_contributions`: field `raw` is the
score rounded to 6 digits, `scaled` is `round(score / max * 100, 2)` when
the maximum is positive and `0` otherwise. -/
def scaleImpact (raw_impact_results : List (Str × List (Str × ℚ))) :
    List (Str × List (Str × ContributionEntry)) :=
  let highest_impact := highestImpact (allScores raw_impact_results)
  raw_impact_results.map (fun p =>
    (p.1, p.2.map (fun q =>
      (q.1, ⟨pyRound 6 q.2,
             if 0 < highest_impact
             then pyRound 2 (q.2 / highest_impact * 100) else 0⟩))))

/-- From `predict.py`, `calculate_symptom_contributions`: baseline encoding and
probabilities, leave-one-out raw scores per top-K disease, then global
rescaling.  `none` marks the executions where the Python code raises. -/
def calculate_symptom_contributions (model : Model) (request_json : Request)
    (predictions : List Prediction) (feature_columns : List Str)
    (severity_table : Str → Option Int) :
    Option (List (Str × List (Str × ContributionEntry))) :=
  let baseline_vector :=
    encode_user_symptoms request_json feature_columns severity_table
  let baseline_probs := model.predict_proba baseline_vector
  match rawImpact model baseline_vector baseline_probs request_json.symptoms
      feature_columns severity_table predictions [] with
  | none => none
  | some raw_impact_results => some (scaleImpact raw_impact_results)

/-! ## Helper lemmas: dictionaries and last-occurrence indices -/

theorem mem_of_mem_dictInsert {v : α} {x : Str × α} {k : Str} {l : List (Str × α)}
    (h : x ∈ dictInsert k v l) : x = (k, v) ∨ x ∈ l := by
  induction l with
  | nil => simpa [dictInsert] using h
  | cons p rest ih =>
    rcases p with ⟨k', v'⟩
    by_cases hk : k' = k
    · rw [show dictInsert k v ((k', v') :: rest) = (k, v) :: rest from by
        simp only [dictInsert, if_pos hk]] at h
      rcases List.mem_cons.mp h with h | h
      · exact Or.inl h
      · exact Or.inr (List.mem_cons_of_mem _ h)
    · rw [show dictInsert k v ((k', v') :: rest) = (k', v') :: dictInsert k v rest from by
        simp only [dictInsert, if_neg hk]] at h
      rcases List.mem_cons.mp h with h | h
      · exact Or.inr (List.mem_cons.mpr (Or.inl h))
      · rcases ih h with h' | h'
        · exact Or.inl h'
        · exact Or.inr (List.mem_cons_of_mem _ h')

theorem fst_mem_dictInsert (v : α) (a k : Str) (l : List (Str × α)) :
    a ∈ (dictInsert k v l).map Prod.fst ↔ a = k ∨ a ∈ l.map Prod.fst := by
  induction l with
  | nil => simp [dictInsert]
  | cons p rest ih =>
    rcases p with ⟨k', v'⟩
    by_cases hk : k' = k
    · rw [show dictInsert k v ((k', v') :: rest) = (k, v) :: rest from by
        simp only [dictInsert, if_pos hk]]
      subst hk
      simp only [List.map_cons, List.mem_cons]
      tauto
    · rw [show dictInsert k v ((k', v') :: rest) = (k', v') :: dictInsert k v rest from by
        simp only [dictInsert, if_neg hk]]
      simp only [List.map_cons, List.mem_cons, ih]
      tauto

theorem lastIdx_sound {name : Str} {cols : List Str} {j : Nat}
    (h : lastIdx name cols = some j) : j < cols.length ∧ cols[j]? = some name := by
  induction cols generalizing j with
  | nil => simp [lastIdx] at h
  | cons c cs ih =>
    unfold lastIdx at h
    cases hrec : lastIdx name cs with
    | some j' =>
      rw [hrec] at h
      injection h with h
      subst h
      rcases ih hrec with ⟨h1, h2⟩
      exact ⟨Nat.succ_lt_succ h1, by simpa using h2⟩
    | none =>
      rw [hrec] at h
      by_cases hc : c = name
      · rw [if_pos hc] at h
        injection h with h
        subst h
        exact ⟨Nat.succ_pos _, by simpa using hc⟩
      · rw [if_neg hc] at h
        exact absurd h (by simp)

theorem lastIdx_eq_none_iff (name : Str) (cols : List Str) :
    lastIdx name cols = none ↔ name ∉ cols := by
  induction cols with
  | nil => simp [lastIdx]
  | cons c cs ih =>
    unfold lastIdx
    cases hrec : lastIdx name cs with
    | some j => simp only [List.mem_cons]; simp [ih.symm, hrec]
    | none =>
      by_cases hc : c = name
      · simp [hc, if_pos hc]
      · simp only [if_neg hc, List.mem_cons]
        simp [ih.symm, hrec, Ne.symm hc, fun h : name = c => hc h.symm]

theorem lastIdx_of_nodup {cols : List Str} (hnd : cols.Nodup) {i : Nat}
    {name : Str} (hget : cols[i]? = some name) :
    lastIdx name cols = some i := by
  induction cols generalizing i with
  | nil => simp at hget
  | cons c cs ih =>
    rcases List.nodup_cons.mp hnd with ⟨hnotin, hnd'⟩
    cases i with
    | zero =>
      simp only [List.getElem?_cons_zero] at hget
      injection hget with hget
      subst hget
      unfold lastIdx
      rw [(lastIdx_eq_none_iff c cs).mpr hnotin]
      simp
    | succ i' =>
      simp only [List.getElem?_cons_succ] at hget
      unfold lastIdx
      rw [ih hnd' hget]

/-! ## Helper lemmas: the encoder -/

/-- The value `encode_user_symptoms` leaves at a dimension is determined by
the last input symptom whose cleaned form names that dimension. -/
def lastWeight (severity_lookup : Str → Option Int) (o : Option Str) : Int :=
  match o with
  | none => 0
  | some s => (severity_lookup s).getD 1

theorem length_foldl_encodeStep (cols : List Str) (sev : Str → Option Int)
    (l : List Str) (v : List Int) :
    (l.foldl (encodeStep cols sev) v).length = v.length := by
  induction l generalizing v with
  | nil => rfl
  | cons s rest ih =>
    rw [List.foldl_cons, ih]
    unfold encodeStep
    cases lastIdx (cleanSymptom s) cols with
    | some j => simp
    | none => rfl

theorem length_encode_user_symptoms (req : Request) (cols : List Str)
    (sev : Str → Option Int) :
    (encode_user_symptoms req cols sev).length = cols.length := by
  unfold encode_user_symptoms
  rw [length_foldl_encodeStep]
  simp

theorem encode_get? {cols : List Str} (hnd : cols.Nodup)
    (sev : Str → Option Int) (l : List Str) {i : Nat} (hi : i < cols.length) :
    (encode_user_symptoms ⟨l⟩ cols sev)[i]? =
      some (lastWeight sev
        ((l.filter (fun s => cleanSymptom s = cols[i])).getLast?)) := by
  unfold encode_user_symptoms
  induction l using List.reverseRecOn with
  | nil =>
    simp [lastWeight, List.getElem?_replicate, hi]
  | append_singleton l s ih =>
    rw [List.foldl_append, List.foldl_cons, List.foldl_nil, List.filter_append]
    by_cases hs : cleanSymptom s = cols[i]
    · have hidx : lastIdx (cleanSymptom s) cols = some i := by
        apply lastIdx_of_nodup hnd
        rw [List.getElem?_eq_getElem hi, hs]
      rw [show encodeStep cols sev
            (l.foldl (encodeStep cols sev) (List.replicate cols.length 0)) s
          = (l.foldl (encodeStep cols sev)
              (List.replicate cols.length 0)).set i ((sev s).getD 1) from by
        unfold encodeStep; rw [hidx]]
      have hlen : i < (l.foldl (encodeStep cols sev)
          (List.replicate cols.length 0)).length := by
        rw [length_foldl_encodeStep]; simpa using hi
      rw [List.getElem?_set_eq_of_lt _ hlen]
      simp [hs, lastWeight]
    · have hfilter :
          List.filter (fun s' => decide (cleanSymptom s' = cols[i])) [s] = [] := by
        simp [hs]
      rw [hfilter, List.append_nil]
      cases hidx : lastIdx (cleanSymptom s) cols with
      | none =>
        rw [show encodeStep cols sev
              (l.foldl (encodeStep cols sev) (List.replicate cols.length 0)) s
            = l.foldl (encodeStep cols sev) (List.replicate cols.length 0) from by
          unfold encodeStep; rw [hidx]]
        exact ih
      | some j =>
        have hj : j ≠ i := by
          intro hji
          subst hji
          rcases lastIdx_sound hidx with ⟨hlt, hget⟩
          rw [List.getElem?_eq_getElem hlt] at hget
          injection hget with hget
          exact hs hget.symm
        rw [show encodeStep cols sev
              (l.foldl (encodeStep cols sev) (List.replicate cols.length 0)) s
            = (l.foldl (encodeStep cols sev)
                (List.replicate cols.length 0)).set j ((sev s).getD 1) from by
          unfold encodeStep; rw [hidx]]
        rw [List.getElem?_set_ne hj]
        exact ih

/-! ## Helper lemmas: characters and normalization -/

theorem toNat_charOfNat {n : Nat} (h : n < 55296) : (Char.ofNat n).toNat = n := by
  unfold Char.ofNat
  rw [dif_pos (Or.inl h)]
  rfl

theorem lowerChar_toNat (c : Char) :
    (lowerChar c).toNat =
      if 65 ≤ c.toNat ∧ c.toNat ≤ 90 then c.toNat + 32 else c.toNat := by
  unfold lowerChar
  by_cases h : 65 ≤ c.toNat ∧ c.toNat ≤ 90
  · rw [if_pos h, if_pos h, toNat_charOfNat (by omega)]
  · rw [if_neg h, if_neg h]

theorem lowerChar_not_upper (c : Char) :
    ¬(65 ≤ (lowerChar c).toNat ∧ (lowerChar c).toNat ≤ 90) := by
  rw [lowerChar_toNat]
  by_cases hc : 65 ≤ c.toNat ∧ c.toNat ≤ 90
  · rw [if_pos hc]; omega
  · rw [if_neg hc]; omega

theorem lowerChar_lowerChar (c : Char) : lowerChar (lowerChar c) = lowerChar c := by
  rw [show lowerChar (lowerChar c) =
      if 65 ≤ (lowerChar c).toNat ∧ (lowerChar c).toNat ≤ 90
      then Char.ofNat ((lowerChar c).toNat + 32) else lowerChar c from rfl]
  rw [if_neg (lowerChar_not_upper c)]

theorem isPySpace_lowerChar (c : Char) : isPySpace (lowerChar c) = isPySpace c := by
  unfold isPySpace
  rw [decide_eq_decide, lowerChar_toNat]
  by_cases hc : 65 ≤ c.toNat ∧ c.toNat ≤ 90
  · rw [if_pos hc]; omega
  · rw [if_neg hc]

theorem head?_dropWhile (p : α → Bool) {l : List α} {c : α}
    (h : (l.dropWhile p).head? = some c) : p c = false := by
  induction l with
  | nil => simp [List.dropWhile] at h
  | cons a l ih =>
    rw [List.dropWhile_cons] at h
    by_cases hp : p a
    · rw [if_pos hp] at h; exact ih h
    · rw [if_neg hp] at h
      simp only [List.head?_cons, Option.some.injEq] at h
      subst h
      rwa [Bool.not_eq_true] at hp

theorem getLast?_cons_of_ne_nil {l : List α} (h : l ≠ []) (a : α) :
    (a :: l).getLast? = l.getLast? := by
  cases l with
  | nil => exact absurd rfl h
  | cons b l => exact List.getLast?_cons_cons

theorem getLast?_dropWhile_of_ne_nil (p : α → Bool) (l : List α)
    (h : l.dropWhile p ≠ []) : (l.dropWhile p).getLast? = l.getLast? := by
  induction l with
  | nil => simp [List.dropWhile] at h
  | cons a l ih =>
    rw [List.dropWhile_cons] at h ⊢
    by_cases hp : p a
    · rw [if_pos hp] at h ⊢
      have hl : l ≠ [] := by
        intro he
        subst he
        simp [List.dropWhile] at h
      rw [ih h, getLast?_cons_of_ne_nil hl]
    · rw [if_neg hp] at h ⊢

theorem dropWhile_eq_self_of_head (p : α → Bool) (l : List α)
    (h : ∀ c, l.head? = some c → p c = false) : l.dropWhile p = l := by
  cases l with
  | nil => rfl
  | cons a l =>
    rw [List.dropWhile_cons, if_neg (by simp [h a rfl])]

theorem strip_getLast?_not_space {s : Str} {c : Char}
    (h : (strip s).getLast? = some c) : isPySpace c = false := by
  unfold strip at h
  rw [List.getLast?_reverse] at h
  exact head?_dropWhile _ h

theorem strip_head?_not_space {s : Str} {c : Char}
    (h : (strip s).head? = some c) : isPySpace c = false := by
  unfold strip at h
  rw [List.head?_reverse] at h
  have hne : (s.dropWhile isPySpace).reverse.dropWhile isPySpace ≠ [] := by
    intro he
    rw [he] at h
    simp at h
  rw [getLast?_dropWhile_of_ne_nil _ _ hne, List.getLast?_reverse] at h
  exact head?_dropWhile _ h

theorem strip_eq_self_of_ends {l : Str}
    (h1 : ∀ c, l.head? = some c → isPySpace c = false)
    (h2 : ∀ c, l.getLast? = some c → isPySpace c = false) : strip l = l := by
  unfold strip
  rw [dropWhile_eq_self_of_head _ _ h1]
  rw [dropWhile_eq_self_of_head _ _
    (fun c hc => h2 c (by rwa [List.head?_reverse] at hc))]
  exact List.reverse_reverse l

theorem map_id_of_mem {f : α → α} {l : List α} (h : ∀ c ∈ l, f c = c) :
    l.map f = l := by
  rw [List.map_congr_left h]
  exact List.map_id' l

/-! ## Helper lemmas: the one-pass underscore collapse -/

theorem collapseUU_ne_nil {l : Str} (h : l ≠ []) : collapseUU l ≠ [] := by
  induction l using collapseUU.induct with
  | case1 => exact absurd rfl h
  | case2 c => simp [collapseUU]
  | case3 c c' rest huu ih => simp [collapseUU, huu]
  | case4 c c' rest huu ih => simp [collapseUU, huu]

theorem mem_collapseUU {c : Char} {l : Str} (h : c ∈ collapseUU l) : c ∈ l := by
  induction l using collapseUU.induct with
  | case1 => simp [collapseUU] at h
  | case2 d => simpa [collapseUU] using h
  | case3 d d' rest huu ih =>
    rw [show collapseUU (d :: d' :: rest) = '_' :: collapseUU rest from by
      simp [collapseUU, huu]] at h
    rcases List.mem_cons.mp h with h | h
    · subst h; simp [huu.1]
    · simp [List.mem_cons_of_mem _ (List.mem_cons_of_mem _ (ih h))]
  | case4 d d' rest huu ih =>
    rw [show collapseUU (d :: d' :: rest) = d :: collapseUU (d' :: rest) from by
      simp [collapseUU, huu]] at h
    rcases List.mem_cons.mp h with h | h
    · simp [h]
    · simp [List.mem_cons_of_mem _ (ih h)]

theorem head?_collapseUU (l : Str) : (collapseUU l).head? = l.head? := by
  induction l using collapseUU.induct with
  | case1 => rfl
  | case2 c => rfl
  | case3 c c' rest huu ih => simp [collapseUU, huu, huu.1]
  | case4 c c' rest huu ih => simp [collapseUU, huu]

theorem getLast?_collapseUU (l : Str) : (collapseUU l).getLast? = l.getLast? := by
  induction l using collapseUU.induct with
  | case1 => rfl
  | case2 c => rfl
  | case3 c c' rest huu ih =>
    rw [show collapseUU (c :: c' :: rest) = '_' :: collapseUU rest from by
      simp [collapseUU, huu]]
    cases rest with
    | nil => simp [collapseUU, huu.2]
    | cons r rs =>
      rw [getLast?_cons_of_ne_nil (collapseUU_ne_nil (by simp)) _, ih,
        List.getLast?_cons_cons, List.getLast?_cons_cons]
  | case4 c c' rest huu ih =>
    rw [show collapseUU (c :: c' :: rest) = c :: collapseUU (c' :: rest) from by
      simp [collapseUU, huu]]
    rw [getLast?_cons_of_ne_nil (collapseUU_ne_nil (by simp)) _, ih,
      List.getLast?_cons_cons]

theorem collapseUU_of_hasUU_false {l : Str} (h : hasUU l = false) :
    collapseUU l = l := by
  induction l using collapseUU.induct with
  | case1 => rfl
  | case2 c => rfl
  | case3 c c' rest huu ih =>
    rw [show hasUU (c :: c' :: rest) = true from by simp [hasUU, huu]] at h
    exact absurd h (by simp)
  | case4 c c' rest huu ih =>
    rw [show hasUU (c :: c' :: rest) = hasUU (c' :: rest) from by
      simp [hasUU, huu]] at h
    rw [show collapseUU (c :: c' :: rest) = c :: collapseUU (c' :: rest) from by
      simp [collapseUU, huu]]
    rw [ih h]

/-! ## Helper lemmas: the normalized string is a fixed point of each pass -/

theorem ne_space_of_mem_replaceSpace {c : Char} {l : Str}
    (h : c ∈ replaceSpace l) : c ≠ ' ' := by
  unfold replaceSpace at h
  rcases List.mem_map.mp h with ⟨x, _, hfx⟩
  by_cases hxs : x = ' '
  · rw [if_pos hxs] at hfx
    subst hfx
    decide
  · rw [if_neg hxs] at hfx
    subst hfx
    exact hxs

theorem lowerChar_fixed_of_mem_clean {c : Char} {s : Str}
    (h : c ∈ cleanSymptom s) : lowerChar c = c := by
  unfold cleanSymptom replaceSpace at h
  rcases List.mem_map.mp h with ⟨x, hx, hfx⟩
  unfold lowerStr at hx
  rcases List.mem_map.mp hx with ⟨y, _, hgy⟩
  by_cases hxs : x = ' '
  · rw [if_pos hxs] at hfx
    subst hfx
    decide
  · rw [if_neg hxs] at hfx
    subst hfx
    subst hgy
    exact lowerChar_lowerChar y

theorem head?_clean_not_space {s : Str} {c : Char}
    (h : (cleanSymptom s).head? = some c) : isPySpace c = false := by
  unfold cleanSymptom replaceSpace lowerStr at h
  rw [List.head?_map, List.head?_map] at h
  cases hd : (strip s).head? with
  | none => rw [hd] at h; simp at h
  | some d =>
    rw [hd] at h
    simp only [Option.map_some', Option.some.injEq] at h
    subst h
    have hds : isPySpace (lowerChar d) = false := by
      rw [isPySpace_lowerChar]
      exact strip_head?_not_space hd
    have hne : lowerChar d ≠ ' ' := by
      intro he
      rw [he] at hds
      exact absurd hds (by decide)
    rw [if_neg hne]
    exact hds

theorem getLast?_clean_not_space {s : Str} {c : Char}
    (h : (cleanSymptom s).getLast? = some c) : isPySpace c = false := by
  unfold cleanSymptom replaceSpace lowerStr at h
  rw [List.getLast?_map, List.getLast?_map] at h
  cases hd : (strip s).getLast? with
  | none => rw [hd] at h; simp at h
  | some d =>
    rw [hd] at h
    simp only [Option.map_some', Option.some.injEq] at h
    subst h
    have hds : isPySpace (lowerChar d) = false := by
      rw [isPySpace_lowerChar]
      exact strip_getLast?_not_space hd
    have hne : lowerChar d ≠ ' ' := by
      intro he
      rw [he] at hds
      exact absurd hds (by decide)
    rw [if_neg hne]
    exact hds

theorem strip_normalize (s : Str) :
    strip (normalize_symptom (.str s)) = normalize_symptom (.str s) := by
  apply strip_eq_self_of_ends
  · intro c hc
    rw [show normalize_symptom (.str s) = collapseUU (cleanSymptom s) from rfl,
      head?_collapseUU] at hc
    exact head?_clean_not_space hc
  · intro c hc
    rw [show normalize_symptom (.str s) = collapseUU (cleanSymptom s) from rfl,
      getLast?_collapseUU] at hc
    exact getLast?_clean_not_space hc

theorem lowerStr_normalize (s : Str) :
    lowerStr (normalize_symptom (.str s)) = normalize_symptom (.str s) := by
  apply map_id_of_mem
  intro c hc
  exact lowerChar_fixed_of_mem_clean (mem_collapseUU hc)

theorem replaceSpace_normalize (s : Str) :
    replaceSpace (normalize_symptom (.str s)) = normalize_symptom (.str s) := by
  apply map_id_of_mem
  intro c hc
  rw [if_neg (ne_space_of_mem_replaceSpace (mem_collapseUU hc))]

theorem normalize_normalize {s : Str}
    (h : hasUU (normalize_symptom (.str s)) = false) :
    normalize_symptom (.str (normalize_symptom (.str s))) =
      normalize_symptom (.str s) := by
  rw [show normalize_symptom (.str (normalize_symptom (.str s)))
      = collapseUU (replaceSpace (lowerStr (strip (normalize_symptom (.str s)))))
      from rfl]
  rw [strip_normalize, lowerStr_normalize, replaceSpace_normalize]
  exact collapseUU_of_hasUU_false h

/-! ## Helper lemmas: sorting, slicing and rounding -/

theorem insertDesc_perm (x : Str × ℚ) (l : List (Str × ℚ)) :
    (insertDesc x l).Perm (x :: l) := by
  induction l with
  | nil => rfl
  | cons y ys ih =>
    unfold insertDesc
    by_cases hy : y.2 ≤ x.2
    · rw [if_pos hy]
    · rw [if_neg hy]
      exact (ih.cons y).trans (List.Perm.swap x y ys)

theorem sortDesc_perm (l : List (Str × ℚ)) : (sortDesc l).Perm l := by
  induction l with
  | nil => rfl
  | cons x xs ih =>
    exact (insertDesc_perm x (sortDesc xs)).trans (ih.cons x)

theorem mem_insertDesc {z x : Str × ℚ} {l : List (Str × ℚ)}
    (h : z ∈ insertDesc x l) : z = x ∨ z ∈ l := by
  have := (insertDesc_perm x l).mem_iff.mp h
  simpa using this

theorem insertDesc_pairwise (x : Str × ℚ) {l : List (Str × ℚ)}
    (h : l.Pairwise (fun a b => b.2 ≤ a.2)) :
    (insertDesc x l).Pairwise (fun a b => b.2 ≤ a.2) := by
  induction l with
  | nil => simp [insertDesc]
  | cons y ys ih =>
    rcases List.pairwise_cons.mp h with ⟨hy, hys⟩
    unfold insertDesc
    by_cases hxy : y.2 ≤ x.2
    · rw [if_pos hxy]
      refine List.pairwise_cons.mpr ⟨?_, h⟩
      intro z hz
      rcases List.mem_cons.mp hz with hz | hz
      · exact hz ▸ hxy
      · exact le_trans (hy z hz) hxy
    · rw [if_neg hxy]
      refine List.pairwise_cons.mpr ⟨?_, ih hys⟩
      intro z hz
      rcases mem_insertDesc hz with hz | hz
      · exact hz ▸ le_of_lt (lt_of_not_le hxy)
      · exact hy z hz

theorem sortDesc_pairwise (l : List (Str × ℚ)) :
    (sortDesc l).Pairwise (fun a b => b.2 ≤ a.2) := by
  induction l with
  | nil => simp [sortDesc]
  | cons x xs ih => exact insertDesc_pairwise x ih

theorem pyTake_eq_take (k : Int) (l : List α) :
    pyTake k l = l.take (if 0 ≤ k then k.toNat else l.length - (-k).toNat) := by
  unfold pyTake
  by_cases hk : 0 ≤ k
  · rw [if_pos hk, if_pos hk]
  · rw [if_neg hk, if_neg hk]

theorem pyTake_sublist (k : Int) (l : List α) : (pyTake k l).Sublist l := by
  rw [pyTake_eq_take]
  exact List.take_sublist _ l

/-! ## Helper lemmas: rounding half to even -/

theorem roundHalfEven_intCast (m : ℤ) : roundHalfEven (m : ℚ) = m := by
  unfold roundHalfEven
  rw [Int.floor_intCast]
  rw [if_pos (by rw [sub_self]; norm_num)]

theorem floor_le_roundHalfEven (q : ℚ) : ⌊q⌋ ≤ roundHalfEven q := by
  unfold roundHalfEven
  split_ifs <;> omega

theorem roundHalfEven_le_floor_add_one (q : ℚ) : roundHalfEven q ≤ ⌊q⌋ + 1 := by
  unfold roundHalfEven
  split_ifs <;> omega

theorem roundHalfEven_mono {q q' : ℚ} (h : q ≤ q') :
    roundHalfEven q ≤ roundHalfEven q' := by
  rcases lt_or_eq_of_le (Int.floor_le_floor h : ⌊q⌋ ≤ ⌊q'⌋) with hf | hf
  · calc roundHalfEven q ≤ ⌊q⌋ + 1 := roundHalfEven_le_floor_add_one q
    _ ≤ ⌊q'⌋ := by omega
    _ ≤ roundHalfEven q' := floor_le_roundHalfEven q'
  · have hr : q - ⌊q⌋ ≤ q' - ⌊q'⌋ := by
      rw [← hf]
      exact sub_le_sub_right h _
    unfold roundHalfEven
    rw [← hf]
    split_ifs <;> first | omega | linarith

theorem roundHalfEven_zero : roundHalfEven 0 = 0 := by
  simpa using roundHalfEven_intCast 0

theorem pyRound_mono (d : Nat) {q q' : ℚ} (h : q ≤ q') :
    pyRound d q ≤ pyRound d q' := by
  unfold pyRound
  have hpow : (0 : ℚ) < 10 ^ d := by positivity
  have hr : (roundHalfEven (q * 10 ^ d) : ℚ) ≤ (roundHalfEven (q' * 10 ^ d) : ℚ) := by
    exact_mod_cast roundHalfEven_mono (mul_le_mul_of_nonneg_right h (le_of_lt hpow))
  exact div_le_div_of_nonneg_right hr (le_of_lt hpow)

theorem pyRound_zero (d : Nat) : pyRound d 0 = 0 := by
  unfold pyRound
  rw [zero_mul, roundHalfEven_zero]
  simp

theorem pyRound_nonneg (d : Nat) {q : ℚ} (h : 0 ≤ q) : 0 ≤ pyRound d q := by
  rw [← pyRound_zero d]
  exact pyRound_mono d h

theorem pyRound_nonpos (d : Nat) {q : ℚ} (h : q ≤ 0) : pyRound d q ≤ 0 := by
  rw [← pyRound_zero d]
  exact pyRound_mono d h

theorem pyRound_hundred : pyRound 2 (100 : ℚ) = 100 := by
  unfold pyRound
  rw [show (100 : ℚ) * 10 ^ 2 = ((10000 : ℤ) : ℚ) by norm_num,
    roundHalfEven_intCast]
  norm_num

/-! ## Helper lemmas: the maximum of a score list -/

theorem foldl_max_mem (xs : List ℚ) (x : ℚ) : xs.foldl max x ∈ x :: xs := by
  induction xs generalizing x with
  | nil => simp
  | cons a l ih =>
    rw [List.foldl_cons]
    rcases List.mem_cons.mp (ih (max x a)) with h | h
    · rcases max_choice x a with hm | hm
      · exact List.mem_cons.mpr (Or.inl (h.trans hm))
      · exact List.mem_cons.mpr (Or.inr (List.mem_cons.mpr (Or.inl (h.trans hm))))
    · exact List.mem_cons.mpr (Or.inr (List.mem_cons.mpr (Or.inr h)))

theorem self_le_foldl_max (xs : List ℚ) (x : ℚ) : x ≤ xs.foldl max x := by
  induction xs generalizing x with
  | nil => simp
  | cons a l ih =>
    rw [List.foldl_cons]
    exact le_trans (le_max_left x a) (ih (max x a))

theorem le_foldl_max {xs : List ℚ} {x y : ℚ} (h : y ∈ x :: xs) :
    y ≤ xs.foldl max x := by
  induction xs generalizing x with
  | nil => simp at h; simp [h]
  | cons a l ih =>
    rw [List.foldl_cons]
    rcases List.mem_cons.mp h with h | h
    · subst h
      exact le_trans (le_max_left y a) (self_le_foldl_max l (max y a))
    · rcases List.mem_cons.mp h with h | h
      · subst h
        exact le_trans (le_max_right x y) (self_le_foldl_max l (max x y))
      · exact ih (x := max x a) (List.mem_cons_of_mem _ h)

theorem highestImpact_mem {l : List ℚ} (h : l ≠ []) : highestImpact l ∈ l := by
  cases l with
  | nil => exact absurd rfl h
  | cons x xs => exact foldl_max_mem xs x

theorem le_highestImpact {l : List ℚ} {q : ℚ} (h : q ∈ l) : q ≤ highestImpact l := by
  cases l with
  | nil => simp at h
  | cons x xs => exact le_foldl_max h

theorem mem_allScores {raw : List (Str × List (Str × ℚ))} {q : ℚ} :
    q ∈ allScores raw ↔ ∃ d ds s, (d, ds) ∈ raw ∧ (s, q) ∈ ds := by
  unfold allScores
  rw [List.mem_flatten]
  constructor
  · rintro ⟨l, hl, hq⟩
    rcases List.mem_map.mp hl with ⟨⟨d, ds⟩, hds, rfl⟩
    rcases List.mem_map.mp hq with ⟨⟨s, q'⟩, hsq, rfl⟩
    exact ⟨d, ds, s, hds, hsq⟩
  · rintro ⟨d, ds, s, hds, hsq⟩
    exact ⟨ds.map (·.2), List.mem_map.mpr ⟨(d, ds), hds, rfl⟩,
      List.mem_map.mpr ⟨(s, q), hsq, rfl⟩⟩

/-! ## Helper lemmas: the scaling pass -/

/-- The `ContributionEntry` the scaling pass produces for a raw score `q`
inside the result set `raw`. -/
def scaleEntry (raw : List (Str × List (Str × ℚ))) (q : ℚ) : ContributionEntry :=
  ⟨pyRound 6 q,
   if 0 < highestImpact (allScores raw)
   then pyRound 2 (q / highestImpact (allScores raw) * 100) else 0⟩

theorem scaleImpact_eq_map (raw : List (Str × List (Str × ℚ))) :
    scaleImpact raw =
      raw.map (fun p => (p.1, p.2.map (fun e => (e.1, scaleEntry raw e.2)))) := by
  rfl

theorem fst_scaleImpact (raw : List (Str × List (Str × ℚ))) :
    (scaleImpact raw).map Prod.fst = raw.map Prod.fst := by
  rw [scaleImpact_eq_map, List.map_map]
  rfl

theorem mem_scaleImpact {raw : List (Str × List (Str × ℚ))} {d : Str}
    {ds' : List (Str × ContributionEntry)} (h : (d, ds') ∈ scaleImpact raw) :
    ∃ ds, (d, ds) ∈ raw ∧ ds' = ds.map (fun e => (e.1, scaleEntry raw e.2)) := by
  rw [scaleImpact_eq_map] at h
  rcases List.mem_map.mp h with ⟨⟨d', ds⟩, hds, heq⟩
  simp only [Prod.mk.injEq] at heq
  exact ⟨ds, heq.1 ▸ hds, heq.2.symm⟩

theorem scaleImpact_mem {raw : List (Str × List (Str × ℚ))} {d : Str}
    {ds : List (Str × ℚ)} (h : (d, ds) ∈ raw) :
    (d, ds.map (fun e => (e.1, scaleEntry raw e.2))) ∈ scaleImpact raw := by
  rw [scaleImpact_eq_map]
  exact List.mem_map.mpr ⟨(d, ds), h, rfl⟩

/-! ## Helper lemmas: unfolding the contribution loops -/

theorem symptomScores_cons_none {model : Model} {bv : List Int} {bp0 : ℚ}
    {dIdx : Nat} {cols : List Str} {sev : Str → Option Int} {sym : Str}
    {rest : List Str} {acc : List (Str × ℚ)}
    (hidx : lastIdx sym cols = none) :
    symptomScores model bv bp0 dIdx cols sev (sym :: rest) acc =
      symptomScores model bv bp0 dIdx cols sev rest acc := by
  simp only [symptomScores, hidx]

theorem symptomScores_cons_some {model : Model} {bv : List Int} {bp0 : ℚ}
    {dIdx : Nat} {cols : List Str} {sev : Str → Option Int} {sym : Str}
    {rest : List Str} {acc : List (Str × ℚ)} {sIdx : Nat} {p1 : ℚ}
    (hidx : lastIdx sym cols = some sIdx)
    (hp1 : (model.predict_proba (bv.set sIdx 0))[dIdx]? = some p1) :
    symptomScores model bv bp0 dIdx cols sev (sym :: rest) acc =
      symptomScores model bv bp0 dIdx cols sev rest
        (dictInsert sym (max 0 (bp0 - p1) * (((sev sym).getD 1 : ℤ) : ℚ)) acc) := by
  simp only [symptomScores, hidx, hp1]

theorem symptomScores_sound (model : Model) (bv : List Int) (bp0 : ℚ)
    (dIdx : Nat) (cols : List Str) (sev : Str → Option Int)
    (hlen : ∀ v, (model.predict_proba v).length = model.classes.length)
    (hd : dIdx < model.classes.length) :
    ∀ (syms : List Str) (acc : List (Str × ℚ)),
      ∃ out, symptomScores model bv bp0 dIdx cols sev syms acc = some out ∧
        (∀ s q, (s, q) ∈ out → (s, q) ∈ acc ∨
          ∃ sIdx p1, lastIdx s cols = some sIdx ∧
            (model.predict_proba (bv.set sIdx 0))[dIdx]? = some p1 ∧
            q = max 0 (bp0 - p1) * (((sev s).getD 1 : ℤ) : ℚ)) ∧
        (∀ s, s ∈ out.map Prod.fst ↔
          s ∈ acc.map Prod.fst ∨ (s ∈ syms ∧ s ∈ cols)) := by
  intro syms
  induction syms with
  | nil =>
    intro acc
    refine ⟨acc, rfl, ?_, ?_⟩
    · intro s q hq
      exact Or.inl hq
    · intro s
      simp
  | cons sym rest ih =>
    intro acc
    cases hidx : lastIdx sym cols with
    | none =>
      have hnotmem : sym ∉ cols := (lastIdx_eq_none_iff sym cols).mp hidx
      rcases ih acc with ⟨out, hout, hent, hkeys⟩
      refine ⟨out, ?_, hent, ?_⟩
      · rw [symptomScores_cons_none hidx]
        exact hout
      · intro s
        rw [hkeys s]
        by_cases hs : s = sym
        · subst hs
          simp [hnotmem]
        · simp [List.mem_cons, hs]
    | some sIdx =>
      have hmem : sym ∈ cols := by
        by_contra hnot
        rw [(lastIdx_eq_none_iff sym cols).mpr hnot] at hidx
        exact absurd hidx (by simp)
      have hp1lt : dIdx < (model.predict_proba (bv.set sIdx 0)).length := by
        rw [hlen]
        exact hd
      obtain ⟨p1, hp1⟩ :
          ∃ p1, (model.predict_proba (bv.set sIdx 0))[dIdx]? = some p1 :=
        ⟨_, List.getElem?_eq_getElem hp1lt⟩
      rcases ih (dictInsert sym
          (max 0 (bp0 - p1) * (((sev sym).getD 1 : ℤ) : ℚ)) acc)
        with ⟨out, hout, hent, hkeys⟩
      refine ⟨out, ?_, ?_, ?_⟩
      · rw [symptomScores_cons_some hidx hp1]
        exact hout
      · intro s q hq
        rcases hent s q hq with hin | hshape
        · rcases mem_of_mem_dictInsert hin with heq | hin'
          · rw [Prod.mk.injEq] at heq
            rcases heq with ⟨hs, hq'⟩
            subst hs
            exact Or.inr ⟨sIdx, p1, hidx, hp1, hq'⟩
          · exact Or.inl hin'
        · exact Or.inr hshape
      · intro s
        rw [hkeys s, fst_mem_dictInsert]
        by_cases hs : s = sym
        · subst hs
          simp [hmem]
        · simp only [hs, false_or, List.mem_cons]
          try tauto

theorem rawImpact_cons {model : Model} {bv : List Int} {bp : List ℚ}
    {selected : List Str} {cols : List Str} {sev : Str → Option Int}
    {pred : Prediction} {rest : List Prediction}
    {acc : List (Str × List (Str × ℚ))} {dIdx : Nat} {p0 : ℚ}
    {scores : List (Str × ℚ)}
    (hidx : lastIdx pred.disease model.classes = some dIdx)
    (hp0 : bp[dIdx]? = some p0)
    (hscores : symptomScores model bv p0 dIdx cols sev selected [] = some scores) :
    rawImpact model bv bp selected cols sev (pred :: rest) acc =
      rawImpact model bv bp selected cols sev rest
        (dictInsert pred.disease scores acc) := by
  simp only [rawImpact, hidx, hp0, hscores]

theorem rawImpact_sound (model : Model) (bv : List Int) (bp : List ℚ)
    (selected : List Str) (cols : List Str) (sev : Str → Option Int)
    (hlen : ∀ v, (model.predict_proba v).length = model.classes.length)
    (hbp : bp.length = model.classes.length) :
    ∀ (preds : List Prediction) (acc : List (Str × List (Str × ℚ))),
      (∀ p ∈ preds, p.disease ∈ model.classes) →
      ∃ out, rawImpact model bv bp selected cols sev preds acc = some out ∧
        (∀ d ds, (d, ds) ∈ out → (d, ds) ∈ acc ∨
          ∃ dIdx p0, lastIdx d model.classes = some dIdx ∧
            bp[dIdx]? = some p0 ∧
            (∀ s q, (s, q) ∈ ds →
              ∃ sIdx p1, lastIdx s cols = some sIdx ∧
                (model.predict_proba (bv.set sIdx 0))[dIdx]? = some p1 ∧
                q = max 0 (p0 - p1) * (((sev s).getD 1 : ℤ) : ℚ)) ∧
            (∀ s, s ∈ ds.map Prod.fst ↔ s ∈ selected ∧ s ∈ cols)) ∧
        (∀ p ∈ preds, p.disease ∈ out.map Prod.fst) ∧
        (∀ a, a ∈ acc.map Prod.fst → a ∈ out.map Prod.fst) := by
  intro preds
  induction preds with
  | nil =>
    intro acc _
    refine ⟨acc, rfl, ?_, ?_, ?_⟩
    · intro d ds h
      exact Or.inl h
    · intro p hp
      simp at hp
    · intro a ha
      exact ha
  | cons pred rest ih =>
    intro acc hmem
    have hpredmem : pred.disease ∈ model.classes :=
      hmem pred (List.mem_cons_self _ _)
    obtain ⟨dIdx, hidx⟩ :
        ∃ dIdx, lastIdx pred.disease model.classes = some dIdx := by
      cases hcase : lastIdx pred.disease model.classes with
      | none => exact absurd ((lastIdx_eq_none_iff _ _).mp hcase) (by simp [hpredmem])
      | some j => exact ⟨j, rfl⟩
    have hdlt : dIdx < model.classes.length := (lastIdx_sound hidx).1
    obtain ⟨p0, hp0⟩ : ∃ p0, bp[dIdx]? = some p0 :=
      ⟨_, List.getElem?_eq_getElem (by rw [hbp]; exact hdlt)⟩
    rcases symptomScores_sound model bv p0 dIdx cols sev hlen hdlt selected []
      with ⟨scores, hscores, hsent, hskeys⟩
    rcases ih (dictInsert pred.disease scores acc)
      (fun p hp => hmem p (List.mem_cons_of_mem _ hp))
      with ⟨out, hout, hent, hmemout, hkeysmono⟩
    refine ⟨out, ?_, ?_, ?_, ?_⟩
    · rw [rawImpact_cons hidx hp0 hscores]
      exact hout
    · intro d ds h
      rcases hent d ds h with hin | hshape
      · rcases mem_of_mem_dictInsert hin with heq | hin'
        · rw [Prod.mk.injEq] at heq
          rcases heq with ⟨hd, hds⟩
          subst hd
          subst hds
          refine Or.inr ⟨dIdx, p0, hidx, hp0, ?_, ?_⟩
          · intro s q hq
            rcases hsent s q hq with hfalse | hshape'
            · simp at hfalse
            · exact hshape'
          · intro s
            rw [hskeys s]
            simp
        · exact Or.inl hin'
      · exact Or.inr hshape
    · intro p hp
      rcases List.mem_cons.mp hp with hp | hp
      · subst hp
        apply hkeysmono
        rw [fst_mem_dictInsert]
        exact Or.inl rfl
      · exact hmemout p hp
    · intro a ha
      apply hkeysmono
      rw [fst_mem_dictInsert]
      exact Or.inr ha

/-- Success and shape of the whole contribution computation. -/
theorem calculate_eq_scaleImpact (model : Model) (req : Request)
    (predictions : List Prediction) (cols : List Str)
    (sev : Str → Option Int)
    (hlen : ∀ v, (model.predict_proba v).length = model.classes.length)
    (hpred : ∀ p ∈ predictions, p.disease ∈ model.classes) :
    ∃ raw,
      rawImpact model (encode_user_symptoms req cols sev)
        (model.predict_proba (encode_user_symptoms req cols sev))
        req.symptoms cols sev predictions [] = some raw ∧
      calculate_symptom_contributions model req predictions cols sev =
        some (scaleImpact raw) := by
  rcases rawImpact_sound model (encode_user_symptoms req cols sev)
      (model.predict_proba (encode_user_symptoms req cols sev))
      req.symptoms cols sev hlen (hlen _) predictions [] hpred
    with ⟨raw, hraw, _, _, _⟩
  refine ⟨raw, hraw, ?_⟩
  simp only [calculate_symptom_contributions]
  rw [hraw]

/-- The dimension named by the cleaned form of `s`, when no later symptom
names it again, ends at the weight looked up by the original string `s`. -/
theorem encode_set_dim {cols : List Str} (hnd : cols.Nodup)
    (sev : Str → Option Int) {i : Nat} (hi : i < cols.length)
    (l1 l2 : List Str) (s : Str) (hs : cleanSymptom s = cols[i])
    (hlast : ∀ t ∈ l2, cleanSymptom t ≠ cols[i]) :
    (encode_user_symptoms ⟨l1 ++ s :: l2⟩ cols sev)[i]? =
      some ((sev s).getD 1) := by
  rw [encode_get? hnd sev _ hi]
  rw [List.filter_append]
  rw [show List.filter (fun t => decide (cleanSymptom t = cols[i])) (s :: l2)
      = [s] from by
    rw [List.filter_cons, if_pos (by simpa using hs),
      List.filter_eq_nil_iff.mpr (by simpa using hlast)]]
  rw [List.getLast?_concat]
  rfl

/-! ## Claims -/

/-- C1, counterexample: the claim reads recognition through the spec's
normalization (`normalize_symptom`, which collapses `"__"`).  On the input
symptom `"a  b"` (two spaces) with feature space `["a_b"]`, the normalized
form `"a_b"` is a feature dimension, so the claim requires that dimension
to be set to the severity weight (default 1); the code's encoder cleans
without the collapse, misses the column, and leaves the vector at `[0]`. -/
theorem C1_counterexample :
    normalize_symptom (.str "a  b".toList) = "a_b".toList ∧
    encode_user_symptoms ⟨["a  b".toList]⟩ ["a_b".toList] (fun _ => none) =
      [0] := by
  decide

/-- C1 (amended): with the encoder's own cleaning (trim, lowercase,
spaces to underscores — without the `"__"` collapse) in place of
"normalized form", `encode_user_symptoms` returns a vector of length `F`;
a dimension named by no input symptom's cleaned form stays `0`; and a
dimension whose last-naming input symptom is `s` holds the severity weight
looked up by the original, non-cleaned string `s` (default 1). -/
theorem C1_encode_characterization (cols : List Str) (hnd : cols.Nodup)
    (sev : Str → Option Int) (l : List Str) :
    (encode_user_symptoms ⟨l⟩ cols sev).length = cols.length ∧
    (∀ i (hi : i < cols.length),
      (∀ s ∈ l, cleanSymptom s ≠ cols[i]) →
      (encode_user_symptoms ⟨l⟩ cols sev)[i]? = some 0) ∧
    (∀ i (hi : i < cols.length) (l1 : List Str) (s : Str) (l2 : List Str),
      l = l1 ++ s :: l2 →
      cleanSymptom s = cols[i] →
      (∀ t ∈ l2, cleanSymptom t ≠ cols[i]) →
      (encode_user_symptoms ⟨l⟩ cols sev)[i]? = some ((sev s).getD 1)) := by
  refine ⟨length_encode_user_symptoms _ _ _, ?_, ?_⟩
  · intro i hi hnone
    rw [encode_get? hnd sev l hi]
    rw [show (l.filter (fun s => cleanSymptom s = cols[i])).getLast? = none from by
      rw [List.filter_eq_nil_iff.mpr (by simpa using hnone)]
      rfl]
    rfl
  · intro i hi l1 s l2 hl hs hlast
    subst hl
    exact encode_set_dim hnd sev hi l1 l2 s hs hlast

/-- C1, witness: feature space `["itching", "skin_rash"]`, request
symptom `"Itching "`; dimension 0 gets the weight looked up by the raw
string (3), dimension 1 stays 0. -/
theorem C1_witness :
    (encode_user_symptoms ⟨["Itching ".toList]⟩
      ["itching".toList, "skin_rash".toList]
      (fun s => if s = "Itching ".toList then some 3 else none)).length = 2 ∧
    (encode_user_symptoms ⟨["Itching ".toList]⟩
      ["itching".toList, "skin_rash".toList]
      (fun s => if s = "Itching ".toList then some 3 else none))[1]? = some 0 ∧
    (encode_user_symptoms ⟨["Itching ".toList]⟩
      ["itching".toList, "skin_rash".toList]
      (fun s => if s = "Itching ".toList then some 3 else none))[0]? =
      some 3 := by
  have h := C1_encode_characterization
    ["itching".toList, "skin_rash".toList] (by decide)
    (fun s => if s = "Itching ".toList then some 3 else none)
    ["Itching ".toList]
  refine ⟨h.1.trans (by decide), h.2.1 1 (by decide) (by decide), ?_⟩
  have h3 := h.2.2 0 (by decide) [] "Itching ".toList [] rfl (by decide)
    (by decide)
  simpa using h3

/-- C2, counterexample: on `"a  b"` (two internal spaces) the
training-time `normalize_symptom` yields `"a_b"` while the inference-time
cleaning inside `encode_user_symptoms` yields `"a__b"`: the two sides do
not compute the same canonical key for every input. -/
theorem C2_counterexample :
    cleanSymptom "a  b".toList = "a__b".toList ∧
    normalize_symptom (.str "a  b".toList) = "a_b".toList ∧
    normalize_symptom (.str "a  b".toList) ≠ cleanSymptom "a  b".toList := by
  decide

/-- C2 (amended): `normalize_symptom` maps non-strings to the empty
string and on strings equals the inference-time cleaning followed by one
`"__" -> "_"` pass; consequently the two sides agree exactly on the inputs
whose cleaned form contains no `"__"`. -/
theorem C2_normalize_vs_clean :
    normalize_symptom .nonStr = [] ∧
    (∀ s : Str, normalize_symptom (.str s) = collapseUU (cleanSymptom s)) ∧
    (∀ s : Str, hasUU (cleanSymptom s) = false →
      normalize_symptom (.str s) = cleanSymptom s) :=
  ⟨rfl, fun _ => rfl, fun _ h => collapseUU_of_hasUU_false h⟩

/-- C2, witness: on `"Skin Rash"` the cleaned form has no `"__"` and the
two normalizations agree. -/
theorem C2_witness :
    hasUU (cleanSymptom "Skin Rash".toList) = false ∧
    normalize_symptom (.str "Skin Rash".toList) =
      cleanSymptom "Skin Rash".toList :=
  ⟨by decide, C2_normalize_vs_clean.2.2 "Skin Rash".toList (by decide)⟩

/-- C8, counterexample: normalization is not idempotent.  On `"a   b"`
(three spaces) one application gives `"a__b"` (the single replacement pass
collapses only the first underscore pair), and a second application gives
`"a_b"`. -/
theorem C8_counterexample :
    normalize_symptom (.str (normalize_symptom (.str "a   b".toList))) ≠
      normalize_symptom (.str "a   b".toList) := by
  decide

/-- C8 (amended): normalization is idempotent exactly on the strings whose
normalized form contains no `"__"` substring; in general a second
application collapses further underscore pairs. -/
theorem C8_conditional_idempotent (s : Str)
    (h : hasUU (normalize_symptom (.str s)) = false) :
    normalize_symptom (.str (normalize_symptom (.str s))) =
      normalize_symptom (.str s) :=
  normalize_normalize h

/-- C8, witness: `" Skin  Rash "` normalizes to `"skin_rash"`, which has
no `"__"`, and a second normalization leaves it unchanged. -/
theorem C8_witness :
    hasUU (normalize_symptom (.str " Skin  Rash ".toList)) = false ∧
    normalize_symptom (.str (normalize_symptom (.str " Skin  Rash ".toList))) =
      normalize_symptom (.str " Skin  Rash ".toList) :=
  ⟨by decide, C8_conditional_idempotent " Skin  Rash ".toList (by decide)⟩

/-- C9, counterexample: the claim reads "not in FeatureSpace after
normalization" through `normalize_symptom`.  For the input `"a  b"` with
feature space `["a__b"]` (itself a canonical name: it is
`normalize_symptom " a   b"`), the normalized form `"a_b"` is *not* a
dimension, so the claim requires the symptom to be dropped; the code's
encoder cleans without the collapse, hits the column, and changes the
vector from `[0]` to `[1]`. -/
theorem C9_counterexample :
    normalize_symptom (.str "a  b".toList) ∉ ["a__b".toList] ∧
    normalize_symptom (.str "a   b".toList) = "a__b".toList ∧
    encode_user_symptoms ⟨["a  b".toList]⟩ ["a__b".toList] (fun _ => none) =
      [1] ∧
    encode_user_symptoms ⟨[]⟩ ["a__b".toList] (fun _ => none) = [0] := by
  decide

/-- C9 (amended): a symptom whose *cleaned* form (the encoder's own
normalization) is not a feature-space dimension is silently dropped: the
encoded vector is identical to the vector produced without that symptom,
and encoding is total, so no error is raised. -/
theorem C9_unknown_symptom_dropped (cols : List Str) (sev : Str → Option Int)
    (l1 l2 : List Str) (s : Str) (hs : cleanSymptom s ∉ cols) :
    encode_user_symptoms ⟨l1 ++ s :: l2⟩ cols sev =
      encode_user_symptoms ⟨l1 ++ l2⟩ cols sev := by
  unfold encode_user_symptoms
  rw [List.foldl_append, List.foldl_append, List.foldl_cons]
  rw [show encodeStep cols sev
      (l1.foldl (encodeStep cols sev) (List.replicate cols.length 0)) s
      = l1.foldl (encodeStep cols sev) (List.replicate cols.length 0) from by
    unfold encodeStep
    rw [(lastIdx_eq_none_iff _ _).mpr hs]]

/-- C9, witness: adding the unrecognized symptom `"xyz"` leaves the
encoded vector unchanged. -/
theorem C9_witness :
    cleanSymptom "xyz".toList ∉ ["itching".toList] ∧
    encode_user_symptoms ⟨["itching".toList, "xyz".toList]⟩
        ["itching".toList] (fun _ => none) =
      encode_user_symptoms ⟨["itching".toList]⟩ ["itching".toList]
        (fun _ => none) :=
  ⟨by decide,
   C9_unknown_symptom_dropped ["itching".toList] (fun _ => none)
     ["itching".toList] [] "xyz".toList (by decide)⟩

/-- C10: when several input symptoms clean to the same feature dimension,
the encoder's write of the last such symptom wins: the dimension ends at
the severity weight looked up by that last symptom's original string
(default 1), regardless of the earlier duplicates. -/
theorem C10_last_write_wins (cols : List Str) (hnd : cols.Nodup)
    (sev : Str → Option Int) (i : Nat) (hi : i < cols.length)
    (l1 l2 : List Str) (s : Str) (hs : cleanSymptom s = cols[i])
    (hlast : ∀ t ∈ l2, cleanSymptom t ≠ cols[i]) :
    (encode_user_symptoms ⟨l1 ++ s :: l2⟩ cols sev)[i]? =
      some ((sev s).getD 1) :=
  encode_set_dim hnd sev hi l1 l2 s hs hlast

/-- C10, witness: `"ITCHING"` then `"Itching "` both clean to
`"itching"`; the final weight is the one looked up for `"Itching "` (5),
not the earlier `"ITCHING"` (9). -/
theorem C10_witness :
    (encode_user_symptoms ⟨["ITCHING".toList, "Itching ".toList]⟩
      ["itching".toList]
      (fun s => if s = "Itching ".toList then some 5
                else if s = "ITCHING".toList then some 9 else none))[0]? =
      some 5 := by
  have h := C10_last_write_wins ["itching".toList] (by decide)
    (fun s => if s = "Itching ".toList then some 5
              else if s = "ITCHING".toList then some 9 else none)
    0 (by decide) ["ITCHING".toList] [] "Itching ".toList (by decide)
    (by decide)
  simpa using h

/-- C6, counterexample: with two classes at probability 1/2 each and
`k = -1`, the slice `disease_probs[:k]` drops only the last entry, so the
ranker returns one prediction, not the empty sequence the claim requires
for every `k ≤ 0`. -/
theorem C6_counterexample :
    predict_top_k_from_json ⟨["a".toList, "b".toList], fun _ => [1/2, 1/2]⟩
      ⟨[]⟩ [] (fun _ => none) (-1) ≠ [] := by
  have hlen1 : (predict_top_k_from_json
      ⟨["a".toList, "b".toList], fun _ => [1/2, 1/2]⟩
      ⟨[]⟩ [] (fun _ => none) (-1)).length = 1 := by
    simp only [predict_top_k_from_json]
    rw [List.length_map, pyTake_eq_take, List.length_take,
      (sortDesc_perm _).length_eq]
    rfl
  intro h
  rw [h] at hlen1
  exact absurd hlen1 (by simp)

/-- C6 (amended): the ranker returns all classes when `k` exceeds their
number; it returns the empty sequence when `k = 0` or `k ≤ -(number of
classes)`; but for `-(number of classes) < k < 0` Python's slice keeps the
first `number of classes + k` entries, so the output is not empty. -/
theorem C6_top_k_bounds (model : Model) (req : Request) (cols : List Str)
    (sev : Str → Option Int) (k : Int)
    (hlen : ∀ v, (model.predict_proba v).length = model.classes.length) :
    ((model.classes.length : Int) < k →
      (predict_top_k_from_json model req cols sev k).length =
        model.classes.length ∧
      ((predict_top_k_from_json model req cols sev k).map
        Prediction.disease).Perm model.classes) ∧
    ((k = 0 ∨ k ≤ -(model.classes.length : Int)) →
      predict_top_k_from_json model req cols sev k = []) ∧
    (-(model.classes.length : Int) < k → k < 0 →
      ((predict_top_k_from_json model req cols sev k).length : Int) =
        (model.classes.length : Int) + k) := by
  have hds : (sortDesc (model.classes.zip (model.predict_proba
      (encode_user_symptoms req cols sev)))).length = model.classes.length := by
    rw [(sortDesc_perm _).length_eq, List.length_zip, hlen]
    exact Nat.min_self _
  refine ⟨?_, ?_, ?_⟩
  · intro hk
    have hk0 : 0 ≤ k := by omega
    have htake : pyTake k (sortDesc (model.classes.zip (model.predict_proba
        (encode_user_symptoms req cols sev)))) =
        sortDesc (model.classes.zip (model.predict_proba
          (encode_user_symptoms req cols sev))) := by
      rw [pyTake_eq_take, if_pos hk0]
      apply List.take_of_length_le
      rw [hds]
      omega
    constructor
    · simp only [predict_top_k_from_json]
      rw [List.length_map, htake, hds]
    · simp only [predict_top_k_from_json]
      rw [htake]
      have hmap : ((sortDesc (model.classes.zip (model.predict_proba
          (encode_user_symptoms req cols sev)))).map
            (fun p => (⟨p.1, pyRound 4 p.2⟩ : Prediction))).map
              Prediction.disease =
          (sortDesc (model.classes.zip (model.predict_proba
            (encode_user_symptoms req cols sev)))).map Prod.fst := by
        rw [List.map_map]
        rfl
      rw [hmap]
      have hperm := (sortDesc_perm (model.classes.zip (model.predict_proba
        (encode_user_symptoms req cols sev)))).map Prod.fst
      rwa [List.map_fst_zip _ _ (le_of_eq (hlen _).symm)] at hperm
  · intro hk
    simp only [predict_top_k_from_json]
    rw [pyTake_eq_take]
    by_cases h0 : 0 ≤ k
    · have hk0 : k = 0 := by omega
      subst hk0
      simp
    · rw [if_neg h0]
      have ht : ((-k).toNat : Int) = -k := Int.toNat_of_nonneg (by omega)
      have hz : (sortDesc (model.classes.zip (model.predict_proba
          (encode_user_symptoms req cols sev)))).length - (-k).toNat = 0 := by
        rw [hds]
        omega
      rw [hz]
      simp
  · intro hk1 hk2
    simp only [predict_top_k_from_json]
    rw [List.length_map, pyTake_eq_take, if_neg (by omega : ¬(0 ≤ k)),
      List.length_take, hds]
    have ht : ((-k).toNat : Int) = -k := Int.toNat_of_nonneg (by omega)
    rw [Nat.min_eq_left (Nat.sub_le _ _)]
    omega

/-- C6, witness: two classes, `k = 5 > 2`: both classes are returned. -/
theorem C6_witness :
    (predict_top_k_from_json ⟨["a".toList, "b".toList], fun _ => [1/2, 1/2]⟩
      ⟨[]⟩ [] (fun _ => none) 5).length = 2 ∧
    ((predict_top_k_from_json ⟨["a".toList, "b".toList], fun _ => [1/2, 1/2]⟩
      ⟨[]⟩ [] (fun _ => none) 5).map Prediction.disease).Perm
      ["a".toList, "b".toList] := by
  have h := (C6_top_k_bounds
    ⟨["a".toList, "b".toList], fun _ => [1/2, 1/2]⟩ ⟨[]⟩ []
    (fun _ => none) 5 (fun _ => rfl)).1 (by decide)
  exact h

/-- C7, counterexample: with two classes and `k = -1` the output has one
entry, whose length is not bounded by `min(k, number of classes) = -1`. -/
theorem C7_counterexample :
    ¬(((predict_top_k_from_json
        ⟨["a".toList, "b".toList], fun _ => [1/2, 1/2]⟩
        ⟨[]⟩ [] (fun _ => none) (-1)).length : Int) ≤
      min (-1) (((⟨["a".toList, "b".toList], fun _ => [1/2, 1/2]⟩ :
        Model).classes.length : Int))) := by
  have hlen1 : (predict_top_k_from_json
      ⟨["a".toList, "b".toList], fun _ => [1/2, 1/2]⟩
      ⟨[]⟩ [] (fun _ => none) (-1)).length = 1 := by
    simp only [predict_top_k_from_json]
    rw [List.length_map, pyTake_eq_take, List.length_take,
      (sortDesc_perm _).length_eq]
    rfl
  rw [hlen1]
  decide

/-- C7 (amended): for `0 ≤ k` the output length is at most
`min(k, number of classes)` (for negative `k` Python's slice can exceed
`min(k, n)`, which is negative); for every `k` the reported probabilities
are non-increasing across the output, and every entry is some class paired
with its probability rounded to 4 decimal digits. -/
theorem C7_top_k_shape (model : Model) (req : Request) (cols : List Str)
    (sev : Str → Option Int) (k : Int) :
    (0 ≤ k → ((predict_top_k_from_json model req cols sev k).length : Int) ≤
      min k (model.classes.length : Int)) ∧
    (predict_top_k_from_json model req cols sev k).Pairwise
      (fun a b => b.probability ≤ a.probability) ∧
    (∀ p ∈ predict_top_k_from_json model req cols sev k,
      ∃ c q, (c, q) ∈ model.classes.zip
          (model.predict_proba (encode_user_symptoms req cols sev)) ∧
        p = ⟨c, pyRound 4 q⟩) := by
  refine ⟨?_, ?_, ?_⟩
  · intro hk
    simp only [predict_top_k_from_json]
    rw [List.length_map, pyTake_eq_take, if_pos hk, List.length_take,
      (sortDesc_perm _).length_eq, List.length_zip]
    have ht : (k.toNat : Int) = k := Int.toNat_of_nonneg hk
    push_cast
    omega
  · simp only [predict_top_k_from_json]
    rw [List.pairwise_map]
    exact List.Pairwise.imp (fun h => pyRound_mono 4 h)
      (List.Pairwise.sublist (pyTake_sublist _ _) (sortDesc_pairwise _))
  · intro p hp
    simp only [predict_top_k_from_json] at hp
    rcases List.mem_map.mp hp with ⟨pair, hpair, rfl⟩
    refine ⟨pair.1, pair.2, ?_, rfl⟩
    exact (sortDesc_perm _).mem_iff.mp ((pyTake_sublist _ _).subset hpair)

/-- C7, witness: two classes, `k = 2`: the length bound holds. -/
theorem C7_witness :
    (0 : Int) ≤ 2 ∧
    (((predict_top_k_from_json
        ⟨["a".toList, "b".toList], fun _ => [1/2, 1/2]⟩
        ⟨[]⟩ [] (fun _ => none) 2).length : Int) ≤
      min 2 (((⟨["a".toList, "b".toList], fun _ => [1/2, 1/2]⟩ :
        Model).classes.length : Int))) :=
  ⟨by decide,
   (C7_top_k_shape ⟨["a".toList, "b".toList], fun _ => [1/2, 1/2]⟩
     ⟨[]⟩ [] (fun _ => none) 2).1 (by decide)⟩

/-- C3: under the data-model invariants (the classifier returns one
probability per class, the top-K diseases are classes, severity weights
are nonnegative), every raw leave-one-out score stored for `(d, s)` is
`max 0 (p0[d] - p1) * weight(s)` — the drop clamped at zero times the
severity weight of the original symptom string (default 1) — hence
nonnegative, and every reported `raw` field (the score rounded to 6
digits) is `≥ 0`. -/
theorem C3_raw_scores (model : Model) (req : Request)
    (predictions : List Prediction) (cols : List Str) (sev : Str → Option Int)
    (hlen : ∀ v, (model.predict_proba v).length = model.classes.length)
    (hpred : ∀ p ∈ predictions, p.disease ∈ model.classes)
    (hw : ∀ s w, sev s = some w → 0 ≤ w) :
    ∃ raw, calculate_symptom_contributions model req predictions cols sev =
        some (scaleImpact raw) ∧
      (∀ d ds, (d, ds) ∈ raw →
        ∃ dIdx p0, lastIdx d model.classes = some dIdx ∧
          (model.predict_proba (encode_user_symptoms req cols sev))[dIdx]? =
            some p0 ∧
          ∀ s q, (s, q) ∈ ds →
            ∃ sIdx p1, lastIdx s cols = some sIdx ∧
              (model.predict_proba
                ((encode_user_symptoms req cols sev).set sIdx 0))[dIdx]? =
                some p1 ∧
              q = max 0 (p0 - p1) * (((sev s).getD 1 : ℤ) : ℚ) ∧ 0 ≤ q) ∧
      (∀ d ds, (d, ds) ∈ scaleImpact raw → ∀ s e, (s, e) ∈ ds →
        0 ≤ e.raw) := by
  rcases rawImpact_sound model (encode_user_symptoms req cols sev)
      (model.predict_proba (encode_user_symptoms req cols sev))
      req.symptoms cols sev hlen (hlen _) predictions [] hpred
    with ⟨raw, hraw, hent, _, _⟩
  have hw' : ∀ s : Str, (0 : ℚ) ≤ (((sev s).getD 1 : ℤ) : ℚ) := by
    intro s
    cases hv : sev s with
    | none => simp [hv]
    | some w =>
      have hw0 := hw s w hv
      simp only [hv, Option.getD_some]
      exact_mod_cast hw0
  have hq0 : ∀ d ds, (d, ds) ∈ raw → ∀ s q, (s, q) ∈ ds → 0 ≤ q := by
    intro d ds hds s q hq
    rcases hent d ds hds with hin | ⟨dIdx, p0, _, _, hsq, _⟩
    · simp at hin
    · rcases hsq s q hq with ⟨sIdx, p1, _, _, hqe⟩
      rw [hqe]
      exact mul_nonneg (le_max_left 0 _) (hw' s)
  refine ⟨raw, ?_, ?_, ?_⟩
  · simp only [calculate_symptom_contributions]
    rw [hraw]
  · intro d ds hds
    rcases hent d ds hds with hin | ⟨dIdx, p0, h1, h2, hsq, _⟩
    · simp at hin
    · refine ⟨dIdx, p0, h1, h2, ?_⟩
      intro s q hq
      rcases hsq s q hq with ⟨sIdx, p1, ha, hb, hc⟩
      exact ⟨sIdx, p1, ha, hb, hc, hq0 d ds hds s q hq⟩
  · intro d ds hds s e he
    rcases mem_scaleImpact hds with ⟨ds0, hds0, rfl⟩
    rcases List.mem_map.mp he with ⟨⟨s', q⟩, hq, heq⟩
    rw [Prod.mk.injEq] at heq
    rcases heq with ⟨hs', he'⟩
    rw [← he']
    have hq' : 0 ≤ q := hq0 d ds0 hds0 s' q hq
    simpa [scaleEntry] using pyRound_nonneg 6 hq'

/-- C3, witness: one class, one recognized symptom, empty severity table:
the theorem's conclusion holds at a fully concrete input. -/
theorem C3_witness :
    ∃ raw, calculate_symptom_contributions ⟨["d".toList], fun _ => [9/10]⟩
        ⟨["itching".toList]⟩ [⟨"d".toList, 9/10⟩] ["itching".toList]
        (fun _ => none) = some (scaleImpact raw) ∧
      (∀ d ds, (d, ds) ∈ raw →
        ∃ dIdx p0, lastIdx d (⟨["d".toList], fun _ => [9/10]⟩ :
            Model).classes = some dIdx ∧
          ((⟨["d".toList], fun _ => [9/10]⟩ : Model).predict_proba
            (encode_user_symptoms ⟨["itching".toList]⟩ ["itching".toList]
              (fun _ => none)))[dIdx]? = some p0 ∧
          ∀ s q, (s, q) ∈ ds →
            ∃ sIdx p1, lastIdx s ["itching".toList] = some sIdx ∧
              ((⟨["d".toList], fun _ => [9/10]⟩ : Model).predict_proba
                ((encode_user_symptoms ⟨["itching".toList]⟩
                  ["itching".toList] (fun _ => none)).set sIdx 0))[dIdx]? =
                some p1 ∧
              q = max 0 (p0 - p1) *
                ((((fun _ => none : Str → Option Int) s).getD 1 : ℤ) : ℚ) ∧
              0 ≤ q) ∧
      (∀ d ds, (d, ds) ∈ scaleImpact raw → ∀ s e, (s, e) ∈ ds →
        0 ≤ e.raw) :=
  C3_raw_scores ⟨["d".toList], fun _ => [9/10]⟩ ⟨["itching".toList]⟩
    [⟨"d".toList, 9/10⟩] ["itching".toList] (fun _ => none)
    (fun _ => rfl) (by decide) (fun _ _ h => nomatch h)

/-- C4: under the same invariants, the scaling pass divides every raw
score by the single maximum taken over the flattened result set (all
diseases and symptoms together; 1 when no scores exist), reporting 0 when
that maximum is not positive; every `scaled` value lies in `[0, 100]`,
and whenever some reported `raw` is positive, some entry is scaled to
exactly 100. -/
theorem C4_scaled_scores (model : Model) (req : Request)
    (predictions : List Prediction) (cols : List Str) (sev : Str → Option Int)
    (hlen : ∀ v, (model.predict_proba v).length = model.classes.length)
    (hpred : ∀ p ∈ predictions, p.disease ∈ model.classes)
    (hw : ∀ s w, sev s = some w → 0 ≤ w) :
    ∃ raw, calculate_symptom_contributions model req predictions cols sev =
        some (scaleImpact raw) ∧
      (∀ d ds, (d, ds) ∈ scaleImpact raw → ∀ s e, (s, e) ∈ ds →
        ∃ q, q ∈ allScores raw ∧ e.raw = pyRound 6 q ∧
          e.scaled = (if 0 < highestImpact (allScores raw)
            then pyRound 2 (q / highestImpact (allScores raw) * 100)
            else 0) ∧
          0 ≤ e.scaled ∧ e.scaled ≤ 100) ∧
      ((∃ d ds s e, (d, ds) ∈ scaleImpact raw ∧ (s, e) ∈ ds ∧ 0 < e.raw) →
        ∃ d ds s e, (d, ds) ∈ scaleImpact raw ∧ (s, e) ∈ ds ∧
          e.scaled = 100) := by
  rcases rawImpact_sound model (encode_user_symptoms req cols sev)
      (model.predict_proba (encode_user_symptoms req cols sev))
      req.symptoms cols sev hlen (hlen _) predictions [] hpred
    with ⟨raw, hraw, hent, _, _⟩
  have hw' : ∀ s : Str, (0 : ℚ) ≤ (((sev s).getD 1 : ℤ) : ℚ) := by
    intro s
    cases hv : sev s with
    | none => simp [hv]
    | some w =>
      have hw0 := hw s w hv
      simp only [hv, Option.getD_some]
      exact_mod_cast hw0
  have hq0 : ∀ q ∈ allScores raw, 0 ≤ q := by
    intro q hq
    rcases mem_allScores.mp hq with ⟨d, ds, s, hds, hsq⟩
    rcases hent d ds hds with hin | ⟨dIdx, p0, _, _, hsq', _⟩
    · simp at hin
    · rcases hsq' s q hsq with ⟨sIdx, p1, _, _, hqe⟩
      rw [hqe]
      exact mul_nonneg (le_max_left 0 _) (hw' s)
  refine ⟨raw, ?_, ?_, ?_⟩
  · simp only [calculate_symptom_contributions]
    rw [hraw]
  · intro d ds hds s e he
    rcases mem_scaleImpact hds with ⟨ds0, hds0, rfl⟩
    rcases List.mem_map.mp he with ⟨⟨s', q⟩, hq, heq⟩
    rw [Prod.mk.injEq] at heq
    rcases heq with ⟨hs', he'⟩
    rw [← he']
    have hqmem : q ∈ allScores raw := mem_allScores.mpr ⟨d, ds0, s', hds0, hq⟩
    refine ⟨q, hqmem, rfl, rfl, ?_, ?_⟩
    · by_cases hpos : 0 < highestImpact (allScores raw)
      · rw [show (scaleEntry raw q).scaled =
            pyRound 2 (q / highestImpact (allScores raw) * 100) from by
          simp [scaleEntry, hpos]]
        exact pyRound_nonneg 2
          (mul_nonneg (div_nonneg (hq0 q hqmem) (le_of_lt hpos)) (by norm_num))
      · rw [show (scaleEntry raw q).scaled = 0 from by simp [scaleEntry, hpos]]
    · by_cases hpos : 0 < highestImpact (allScores raw)
      · rw [show (scaleEntry raw q).scaled =
            pyRound 2 (q / highestImpact (allScores raw) * 100) from by
          simp [scaleEntry, hpos]]
        have hdiv : q / highestImpact (allScores raw) ≤ 1 :=
          (div_le_one hpos).mpr (le_highestImpact hqmem)
        have hle : q / highestImpact (allScores raw) * 100 ≤ 100 := by
          calc q / highestImpact (allScores raw) * 100 ≤ 1 * 100 :=
            mul_le_mul_of_nonneg_right hdiv (by norm_num)
          _ = 100 := one_mul 100
        calc pyRound 2 (q / highestImpact (allScores raw) * 100) ≤
            pyRound 2 100 := pyRound_mono 2 hle
          _ = 100 := pyRound_hundred
      · rw [show (scaleEntry raw q).scaled = 0 from by simp [scaleEntry, hpos]]
        norm_num
  · rintro ⟨d, ds, s, e, hds, he, hpos⟩
    rcases mem_scaleImpact hds with ⟨ds0, hds0, rfl⟩
    rcases List.mem_map.mp he with ⟨⟨s', q⟩, hq, heq⟩
    rw [Prod.mk.injEq] at heq
    rcases heq with ⟨hs', he'⟩
    have hqmem : q ∈ allScores raw := mem_allScores.mpr ⟨d, ds0, s', hds0, hq⟩
    have hqpos : 0 < q := by
      by_contra hno
      push_neg at hno
      have hr := pyRound_nonpos 6 hno
      rw [← he'] at hpos
      have : (scaleEntry raw q).raw = pyRound 6 q := rfl
      rw [this] at hpos
      linarith
    have hHpos : 0 < highestImpact (allScores raw) :=
      lt_of_lt_of_le hqpos (le_highestImpact hqmem)
    have hne : allScores raw ≠ [] := by
      intro hnil
      rw [hnil] at hqmem
      simp at hqmem
    rcases mem_allScores.mp (highestImpact_mem hne) with ⟨d1, ds1, s1, hds1, hs1⟩
    refine ⟨d1, ds1.map (fun e => (e.1, scaleEntry raw e.2)), s1,
      scaleEntry raw (highestImpact (allScores raw)),
      scaleImpact_mem hds1,
      List.mem_map.mpr ⟨(s1, highestImpact (allScores raw)), hs1, rfl⟩, ?_⟩
    rw [show (scaleEntry raw (highestImpact (allScores raw))).scaled =
        pyRound 2 (highestImpact (allScores raw) /
          highestImpact (allScores raw) * 100) from by
      simp [scaleEntry, hHpos]]
    rw [div_self (ne_of_gt hHpos), one_mul, pyRound_hundred]

/-- C4, witness: the theorem's conclusion at a fully concrete input. -/
theorem C4_witness :
    ∃ raw, calculate_symptom_contributions ⟨["d".toList], fun _ => [9/10]⟩
        ⟨["itching".toList]⟩ [⟨"d".toList, 9/10⟩] ["itching".toList]
        (fun _ => none) = some (scaleImpact raw) ∧
      (∀ d ds, (d, ds) ∈ scaleImpact raw → ∀ s e, (s, e) ∈ ds →
        ∃ q, q ∈ allScores raw ∧ e.raw = pyRound 6 q ∧
          e.scaled = (if 0 < highestImpact (allScores raw)
            then pyRound 2 (q / highestImpact (allScores raw) * 100)
            else 0) ∧
          0 ≤ e.scaled ∧ e.scaled ≤ 100) ∧
      ((∃ d ds s e, (d, ds) ∈ scaleImpact raw ∧ (s, e) ∈ ds ∧ 0 < e.raw) →
        ∃ d ds s e, (d, ds) ∈ scaleImpact raw ∧ (s, e) ∈ ds ∧
          e.scaled = 100) :=
  C4_scaled_scores ⟨["d".toList], fun _ => [9/10]⟩ ⟨["itching".toList]⟩
    [⟨"d".toList, 9/10⟩] ["itching".toList] (fun _ => none)
    (fun _ => rfl) (by decide) (fun _ _ h => nomatch h)

/-- C5, counterexample: the request symptom `"Itching"` normalizes (and
cleans) to the feature dimension `"itching"`, so the claim requires a
contribution entry for it; `calculate_symptom_contributions` checks the
raw string against the feature index, skips it, and returns an empty
per-disease map. -/
theorem C5_counterexample :
    cleanSymptom "Itching".toList = "itching".toList ∧
    calculate_symptom_contributions ⟨["d".toList], fun _ => [1]⟩
      ⟨["Itching".toList]⟩ [⟨"d".toList, 1⟩] ["itching".toList]
      (fun _ => none) = some [("d".toList, [])] := by
  decide

/-- C5 (amended): for each top-K disease the contribution map has an
entry for exactly those input symptoms whose *raw, unnormalized* string
is a feature-space dimension (the code assumes input was pre-cleaned);
symptoms recognized by the encoder only after cleaning are skipped. -/
theorem C5_contribution_keys (model : Model) (req : Request)
    (predictions : List Prediction) (cols : List Str) (sev : Str → Option Int)
    (hlen : ∀ v, (model.predict_proba v).length = model.classes.length)
    (hpred : ∀ p ∈ predictions, p.disease ∈ model.classes) :
    ∃ res, calculate_symptom_contributions model req predictions cols sev =
        some res ∧
      (∀ p ∈ predictions, p.disease ∈ res.map Prod.fst) ∧
      (∀ d ds, (d, ds) ∈ res → ∀ s,
        s ∈ ds.map Prod.fst ↔ (s ∈ req.symptoms ∧ s ∈ cols)) := by
  rcases rawImpact_sound model (encode_user_symptoms req cols sev)
      (model.predict_proba (encode_user_symptoms req cols sev))
      req.symptoms cols sev hlen (hlen _) predictions [] hpred
    with ⟨raw, hraw, hent, hmemout, _⟩
  refine ⟨scaleImpact raw, ?_, ?_, ?_⟩
  · simp only [calculate_symptom_contributions]
    rw [hraw]
  · intro p hp
    rw [fst_scaleImpact]
    exact hmemout p hp
  · intro d ds hds s
    rcases mem_scaleImpact hds with ⟨ds0, hds0, rfl⟩
    have hkeys : (ds0.map (fun e => (e.1, scaleEntry raw e.2))).map Prod.fst
        = ds0.map Prod.fst := by
      rw [List.map_map]
      rfl
    rw [hkeys]
    rcases hent d ds0 hds0 with hin | ⟨dIdx, p0, _, _, _, hk⟩
    · simp at hin
    · exact hk s

/-- C5, witness: the theorem's conclusion at a fully concrete input where
the raw symptom string is a feature dimension and receives an entry. -/
theorem C5_witness :
    ∃ res, calculate_symptom_contributions ⟨["d".toList], fun _ => [9/10]⟩
        ⟨["itching".toList]⟩ [⟨"d".toList, 9/10⟩] ["itching".toList]
        (fun _ => none) = some res ∧
      (∀ p ∈ ([⟨"d".toList, 9/10⟩] : List Prediction),
        p.disease ∈ res.map Prod.fst) ∧
      (∀ d ds, (d, ds) ∈ res → ∀ s,
        s ∈ ds.map Prod.fst ↔
          (s ∈ (⟨["itching".toList]⟩ : Request).symptoms ∧
           s ∈ ["itching".toList])) :=
  C5_contribution_keys ⟨["d".toList], fun _ => [9/10]⟩ ⟨["itching".toList]⟩
    [⟨"d".toList, 9/10⟩] ["itching".toList] (fun _ => none)
    (fun _ => rfl) (by decide)

end SymptomRisk
